import Mathlib

/-
Verification of the manifest-driven asset-tag resolver of the neulix
repository.

Two implementations of getPageAssetTags exist in the source tree:

1. src/packages/neulix/src/render.ts: a flat resolver over BuildManifest
   records of shape (js?, css, imports?), looked up by the raw entry name.
   It is embedded below in namespace Neulix.

2. src/src/utils/render.ts: a recursive resolver over PageManifest records
   of shape (file, css?, imports?), looked up by a key derived from the
   entry name and the hydrate flag, with a deduplicated preload walk
   (collectModulePreloads) and a css walk without deduplication
   (collectCss). It is embedded below in namespace AppUtils.

Manifests are embedded as association lists (JavaScript objects have
unique string keys and preserve insertion order); JavaScript Set objects
are embedded as duplicate-free lists in insertion order; possibly absent
record fields are embedded as Option.
-/

namespace Neulix

/-- BuildManifest record value from src/packages/neulix/src/types.ts:
js and imports are optional fields, css is required. -/
structure BuildEntry where
  js : Option String
  css : String
  imports : Option (List String)
deriving DecidableEq, Repr

/-- A BuildManifest is a JavaScript object keyed by entry name. -/
abbrev BuildManifest : Type := List (String × BuildEntry)

/-- Return type of getPageAssetTags: three HTML fragments. -/
structure AssetTags where
  scriptTags : String
  cssTags : String
  preloadTags : String
deriving DecidableEq, Repr

/-- The all-empty result returned on a manifest miss. -/
def emptyTags : AssetTags :=
  { scriptTags := "", cssTags := "", preloadTags := "" }

/-- Stylesheet link tag, as interpolated in the source. -/
def stylesheetTag (file : String) : String :=
  "<link rel=\"stylesheet\" href=\"/" ++ file ++ "\">"

/-- Modulepreload link tag, as interpolated in the source. -/
def modulepreloadTag (file : String) : String :=
  "<link rel=\"modulepreload\" href=\"/" ++ file ++ "\">"

/-- Module script tag, as interpolated in the source. -/
def moduleScriptTag (file : String) : String :=
  "<script type=\"module\" src=\"/" ++ file ++ "\"></script>"

/-- Join a list of tags with the separator used by the source
(join with a newline plus four spaces). -/
def joinTags (tags : List String) : String :=
  String.intercalate "\n    " tags

/-- Preload hint list of an entry: one hint per element of the imports
array (entry.imports.map in the source); an absent imports field yields
the empty list, matching the ternary that yields the empty string. -/
def preloadHints (entry : BuildEntry) : List String :=
  match entry.imports with
  | some files => files.map modulepreloadTag
  | none => []

/-- Embedding of getPageAssetTags from src/packages/neulix/src/render.ts.
The entry is looked up by the raw entry name; a miss returns all-empty
fragments; a non-hydrated page, or an entry without a js field, returns
only the css tag; otherwise preload hints are mapped directly over the
imports array and joined, and the module script tag is produced. -/
def getPageAssetTags (manifest : BuildManifest) (entryName : String)
    (hydrate : Bool) : AssetTags :=
  match List.lookup entryName manifest with
  | none => emptyTags
  | some entry =>
    let cssTags := stylesheetTag entry.css
    match hydrate, entry.js with
    | false, _ => { scriptTags := "", cssTags := cssTags, preloadTags := "" }
    | true, none => { scriptTags := "", cssTags := cssTags, preloadTags := "" }
    | true, some js =>
      { scriptTags := moduleScriptTag js
        cssTags := cssTags
        preloadTags := joinTags (preloadHints entry) }

/-- Exception-aware embedding of the same function: every access to a
field of a possibly-undefined value goes through jsGet, which raises a
TypeError when the value is absent, mirroring JavaScript semantics. The
source guards each such access, so this run never raises. -/
def jsGet {α : Type} : Option α → Except String α
  | some a => Except.ok a
  | none => Except.error "TypeError: cannot read properties of undefined"

/-- Exception-aware run of getPageAssetTags, following the statement
order of the source: lookup, truthiness guard, css interpolation,
hydrate and js guard, imports ternary, script interpolation. -/
def getPageAssetTagsE (manifest : BuildManifest) (entryName : String)
    (hydrate : Bool) : Except String AssetTags := do
  let entryOpt := List.lookup entryName manifest
  if entryOpt.isNone then
    return emptyTags
  let entry ← jsGet entryOpt
  let cssTags := stylesheetTag entry.css
  if !hydrate || entry.js.isNone then
    return { scriptTags := "", cssTags := cssTags, preloadTags := "" }
  let js ← jsGet entry.js
  let preloadTags :=
    match entry.imports with
    | some files => joinTags (files.map modulepreloadTag)
    | none => ""
  return { scriptTags := moduleScriptTag js
           cssTags := cssTags
           preloadTags := preloadTags }

/-- State-threaded run of getPageAssetTags: the manifest is carried as
explicit state through each step and returned alongside the result, so that
non-mutation of the manifest argument is expressible. -/
def getPageAssetTagsRun (manifest : BuildManifest) (entryName : String)
    (hydrate : Bool) : AssetTags × BuildManifest :=
  match List.lookup entryName manifest with
  | none => (emptyTags, manifest)
  | some entry =>
    let cssTags := stylesheetTag entry.css
    match hydrate, entry.js with
    | false, _ =>
      ({ scriptTags := "", cssTags := cssTags, preloadTags := "" }, manifest)
    | true, none =>
      ({ scriptTags := "", cssTags := cssTags, preloadTags := "" }, manifest)
    | true, some js =>
      ({ scriptTags := moduleScriptTag js
         cssTags := cssTags
         preloadTags := joinTags (preloadHints entry) }, manifest)

/-- Page record without a name, from src/packages/neulix/src/types.ts:
PageInput is PageConfig with the name omitted. The component is opaque to
the helper, so it is a type parameter here. -/
structure PageInput (α : Type) where
  component : α
  hydrate : Bool
deriving DecidableEq, Repr

/-- Page record with its registry name, from
src/packages/neulix/src/types.ts. -/
structure PageConfig (α : Type) where
  name : String
  component : α
  hydrate : Bool
deriving DecidableEq, Repr

/-- Embedding of createPages from src/packages/neulix/src/types.ts: for
each key of the input object, in order, spread the input record and set
its name to the key. -/
def createPages {α : Type} (input : List (String × PageInput α)) :
    List (String × PageConfig α) :=
  input.map (fun kv =>
    (kv.1, { name := kv.1
             component := kv.2.component
             hydrate := kv.2.hydrate }))

end Neulix

namespace AppUtils

open Neulix (AssetTags emptyTags stylesheetTag modulepreloadTag moduleScriptTag joinTags)

/-- PageManifest record value from src/src/types.ts: file is required,
css and imports are optional. -/
structure ManifestChunk where
  file : String
  css : Option (List String)
  imports : Option (List String)
deriving DecidableEq, Repr

/-- A PageManifest is a JavaScript object keyed by manifest key. -/
abbrev PageManifest : Type := List (String × ManifestChunk)

/-- JavaScript Set.add on the insertion-ordered duplicate-free list
model: append the element unless already present. -/
def addElem (s : List String) (x : String) : List String :=
  if x ∈ s then s else s ++ [x]

/-- Add every element of a list to the set model, in order. -/
def addAll (s : List String) (xs : List String) : List String :=
  xs.foldl addElem s

/-- Embedding of the charAt-toUpperCase-slice capitalization in
getPageAssetTags of src/src/utils/render.ts. -/
def capitalize (s : String) : String :=
  match s.data with
  | [] => ""
  | c :: rest => String.mk (Char.toUpper c :: rest)

/-- Derived manifest key for a hydrated page. -/
def pagesEntryKey (entryName : String) : String :=
  "src/pages/" ++ capitalize entryName ++ ".entry.tsx"

/-- Derived manifest key for an SSR-only page. -/
def pagesCssKey (entryName : String) : String :=
  "src/pages/" ++ capitalize entryName ++ ".css"

/-- Embedding of the endsWith test on the css extension. -/
def hasCssExt (s : String) : Bool :=
  List.isSuffixOf ".css".data s.data

/-- Fueled embedding of the loop body of collectCss from
src/src/utils/render.ts: walk the import keys of the current chunk; for
each key found in the manifest, descend into the found chunk after adding
its css list, with no visited check. Each descent is a JavaScript call
frame, so it consumes one unit of fuel; exhausted fuel returns none,
marking a run that does not terminate (stack overflow). -/
def collectCssImports (m : PageManifest) :
    Nat → List String → List String → Option (List String)
  | _, [], collected => some collected
  | fuel, key :: rest, collected =>
    match List.lookup key m with
    | none => collectCssImports m fuel rest collected
    | some ic =>
      match fuel with
      | 0 => none
      | Nat.succ fuelRest =>
        match collectCssImports m fuelRest (ic.imports.getD [])
            (addAll collected (ic.css.getD [])) with
        | none => none
        | some collected2 => collectCssImports m (Nat.succ fuelRest) rest collected2
termination_by fuel keys _ => (fuel, keys.length)

/-- Fueled embedding of a top-level collectCss call: add the css list of
the chunk itself, then walk its imports. -/
def collectCssRun (m : PageManifest) (fuel : Nat) (chunk : ManifestChunk)
    (collected : List String) : Option (List String) :=
  match fuel with
  | 0 => none
  | Nat.succ f =>
    collectCssImports m f (chunk.imports.getD [])
      (addAll collected (chunk.css.getD []))

/-- Fueled embedding of the loop body of collectModulePreloads from
src/src/utils/render.ts: walk the import keys of the current chunk; for
each key found in the manifest whose file is not yet collected, add the
file and descend into the found chunk. Fuel only bounds the descent
depth; the walk provably stabilizes once the fuel exceeds the number of
distinct files in the manifest. -/
def collectMPAux (m : PageManifest) :
    Nat → List String → List String → List String
  | _, [], collected => collected
  | fuel, key :: rest, collected =>
    match List.lookup key m with
    | none => collectMPAux m fuel rest collected
    | some ic =>
      if ic.file ∈ collected then
        collectMPAux m fuel rest collected
      else
        match fuel with
        | 0 => collected
        | Nat.succ f =>
          collectMPAux m (Nat.succ f) rest
            (collectMPAux m f (ic.imports.getD []) (collected ++ [ic.file]))
termination_by fuel keys _ => (fuel, keys.length)

/-- Canonical fuel: one more than the manifest length, which exceeds the
number of distinct chunk files and is therefore always sufficient. -/
def mpFuel (m : PageManifest) : Nat :=
  m.length + 1

/-- Embedding of collectModulePreloads: walk the imports of the chunk
with the always-sufficient canonical fuel. -/
def collectModulePreloads (m : PageManifest) (chunk : ManifestChunk)
    (collected : List String) : List String :=
  collectMPAux m (mpFuel m) (chunk.imports.getD []) collected

/-- Fueled embedding of getPageAssetTags from src/src/utils/render.ts:
the lookup key is derived from the entry name and the hydrate flag; a
miss returns all-empty fragments; the css set is the file itself for a
css entry and the collectCss walk otherwise; SSR-only pages return only
css tags; hydrated pages additionally get preload hints from the
deduplicated walk and the module script tag for the entry file. The
result is none when the collectCss walk runs out of fuel. -/
def getPageAssetTagsF (m : PageManifest) (fuel : Nat) (entryName : String)
    (hydrate : Bool) : Option AssetTags :=
  let entryKey := if hydrate then pagesEntryKey entryName
                  else pagesCssKey entryName
  match List.lookup entryKey m with
  | none => some emptyTags
  | some entry =>
    let cssFilesO := if hasCssExt entry.file then some [entry.file]
                     else collectCssRun m fuel entry []
    match cssFilesO with
    | none => none
    | some cssFiles =>
      let cssTags := joinTags (cssFiles.map stylesheetTag)
      match hydrate with
      | false => some { scriptTags := "", cssTags := cssTags, preloadTags := "" }
      | true =>
        let preloadFiles := collectModulePreloads m entry []
        let preloadTags := joinTags (preloadFiles.map modulepreloadTag)
        some { scriptTags := moduleScriptTag entry.file
               cssTags := cssTags
               preloadTags := preloadTags }

/-- A call of the fueled getPageAssetTags embedding returns a value for
some stack budget; runs that diverge in JavaScript satisfy the negation. -/
def ReturnsAt (m : PageManifest) (entryName : String) (hydrate : Bool) : Prop :=
  ∃ fuel tags, getPageAssetTagsF m fuel entryName hydrate = some tags

/-- Reachability of a chunk file over the imports edges of the manifest,
starting from a list of import keys: a key found in the manifest yields
its file, and recursively the files reachable from the imports of the
found chunk. -/
inductive MPReach (m : PageManifest) : List String → String → Prop where
  | here {keys key chunk} : key ∈ keys → List.lookup key m = some chunk →
      MPReach m keys chunk.file
  | step {keys key chunk f} : key ∈ keys → List.lookup key m = some chunk →
      MPReach m (chunk.imports.getD []) f → MPReach m keys f

/-- Distinct chunks sharing a file name have the same imports list. This
holds in particular when chunk files are pairwise distinct, as they are
for content-hashed bundler output. -/
def FileFunctional (m : PageManifest) : Prop :=
  ∀ p ∈ m, ∀ q ∈ m,
    (p : String × ManifestChunk).2.file = (q : String × ManifestChunk).2.file →
      p.2.imports = q.2.imports

instance (m : PageManifest) : Decidable (FileFunctional m) :=
  decidable_of_iff
    (∀ p ∈ m, ∀ q ∈ m,
      (p : String × ManifestChunk).2.file = (q : String × ManifestChunk).2.file →
        p.2.imports = q.2.imports) Iff.rfl

/-- Distinct file names of the manifest chunks. -/
def manifestFiles (m : PageManifest) : List String :=
  (m.map (fun p => p.2.file)).dedup

/-- Manifest files not yet collected. -/
def newFiles (m : PageManifest) (collected : List String) : List String :=
  (manifestFiles m).filter (fun f => !(List.elem f collected))

/-- A fuel value strictly dominating the number of uncollected manifest
files; enough for every descent of the preload walk. -/
def SuffFuel (m : PageManifest) (collected : List String) (fuel : Nat) : Prop :=
  (newFiles m collected).length < fuel

/-- Every chunk found at this key has its file in the collected set. -/
def KeyDone (m : PageManifest) (S : List String) (key : String) : Prop :=
  ∀ c, List.lookup key m = some c → c.file ∈ S

/-- Closure of the collected set up to pending keys: whenever a collected
file belongs to a chunk of the manifest, each import key of that chunk is
either done or still pending. -/
def InvExcept (m : PageManifest) (S : List String)
    (pending : List String) : Prop :=
  ∀ k c, List.lookup k m = some c → c.file ∈ S →
    ∀ k2 ∈ c.imports.getD [], KeyDone m S k2 ∨ k2 ∈ pending

/-- State-threaded preload walk: the manifest travels as part of the
state and is returned alongside the collected set, mirroring that the
source reads the manifest and mutates only the local set. -/
def collectMPAuxS :
    PageManifest × List String → Nat → List String →
      PageManifest × List String
  | st, _, [] => st
  | (m, collected), fuel, key :: rest =>
    match List.lookup key m with
    | none => collectMPAuxS (m, collected) fuel rest
    | some ic =>
      if ic.file ∈ collected then
        collectMPAuxS (m, collected) fuel rest
      else
        match fuel with
        | 0 => (m, collected)
        | Nat.succ f =>
          collectMPAuxS
            (collectMPAuxS (m, collected ++ [ic.file]) f (ic.imports.getD []))
            (Nat.succ f) rest
termination_by _ fuel keys => (fuel, keys.length)

/-- Concrete cyclic manifest: the hydrated entry for the home page
imports chunk-a, and chunk-a and chunk-b import each other. -/
def cycManifest : PageManifest :=
  [("src/pages/Home.entry.tsx",
      { file := "Home-abc.js", css := none, imports := some ["chunk-a"] }),
   ("chunk-a", { file := "a.js", css := none, imports := some ["chunk-b"] }),
   ("chunk-b", { file := "b.js", css := none, imports := some ["chunk-a"] })]

end AppUtils

/-- Window matcher on character lists: the pattern occurs at the head. -/
def matchesAt (pat s : List Char) : Bool :=
  match pat, s with
  | [], _ => true
  | _ :: _, [] => false
  | p :: ps, c :: cs => p == c && matchesAt ps cs

/-- Number of window positions at which the pattern occurs inside a
character list; used to count tag occurrences inside a fragment. -/
def countOccs (pat : List Char) : List Char → Nat
  | [] => 0
  | c :: rest => (if matchesAt pat (c :: rest) then 1 else 0) + countOccs pat rest

/-- Manifest of the round-trip scenario of the specification. -/
def homeManifest : Neulix.BuildManifest :=
  [("home", { js := some "home-abc.js", css := "styles-def.css",
              imports := some ["chunk-xyz.js"] })]

/-- Manifest whose home entry lists the chunk-a file twice. -/
def dupImportsManifest : Neulix.BuildManifest :=
  [("home", { js := some "home-abc.js", css := "styles-def.css",
              imports := some ["chunk-a.js", "chunk-b.js", "chunk-a.js"] })]

/-- Manifest with an entry that has no js field. -/
def cssOnlyManifest : Neulix.BuildManifest :=
  [("docs", { js := none, css := "styles-def.css",
              imports := some ["chunk-xyz.js"] })]

/-- Manifest with an entry that has no imports field. -/
def noImportsManifest : Neulix.BuildManifest :=
  [("home", { js := some "home-abc.js", css := "styles-def.css",
              imports := none })]

/-- Diamond-shaped prototype manifest: chunk keys a and b both import
chunk key c, so the c file is reachable on two paths. -/
def diamondManifest : AppUtils.PageManifest :=
  [("a", { file := "a.js", css := none, imports := some ["c"] }),
   ("b", { file := "b.js", css := none, imports := some ["c"] }),
   ("c", { file := "c.js", css := none, imports := none })]

/-- Entry chunk importing both sides of the diamond. -/
def diamondEntry : AppUtils.ManifestChunk :=
  { file := "Home-aaa.js", css := none, imports := some ["a", "b"] }

/-- Prototype manifest keyed only by the derived hydrated key for the
home page; the raw name home is not a key. -/
def derivedKeyManifest : AppUtils.PageManifest :=
  [("src/pages/Home.entry.tsx",
      { file := "Home-abc.js", css := none, imports := none })]

/-- Prototype manifest keyed by the raw name home only; no derived key
is present. -/
def rawKeyManifest : AppUtils.PageManifest :=
  [("home", { file := "x.js", css := none, imports := none })]

/-- Entry chunk of the cyclic manifest. -/
def cycEntry : AppUtils.ManifestChunk :=
  { file := "Home-abc.js", css := none, imports := some ["chunk-a"] }

section NeulixLemmas

open Neulix

/-- The exception-aware run always succeeds and agrees with the pure
embedding. -/
theorem getPageAssetTagsE_ok (manifest : BuildManifest) (entryName : String)
    (hydrate : Bool) :
    getPageAssetTagsE manifest entryName hydrate =
      Except.ok (getPageAssetTags manifest entryName hydrate) := by
  unfold getPageAssetTagsE getPageAssetTags
  cases h : List.lookup entryName manifest with
  | none =>
    simp only [h, Option.isNone_none, if_true, ite_true]
    rfl
  | some entry =>
    cases hydrate <;> cases hjs : entry.js <;>
      simp only [jsGet, h, hjs, Option.isNone_none, Option.isNone_some,
        Bool.not_true, Bool.not_false, Bool.false_or, Bool.true_or,
        Bool.or_true, Bool.or_false, if_true, if_false, ite_true, ite_false,
        bind, Except.bind, pure, Except.pure, Functor.map, Except.map,
        preloadHints, joinTags] <;>
      first
      | rfl
      | (cases entry.imports <;> rfl)

end NeulixLemmas

namespace AppUtils

/-- A successful association-list lookup returns a stored value. -/
theorem lookup_mem {k : String} {c : ManifestChunk} :
    ∀ {m : PageManifest}, List.lookup k m = some c → ∃ k2, (k2, c) ∈ m := by
  intro m
  induction m with
  | nil => intro h; simp [List.lookup] at h
  | cons p rest ih =>
    obtain ⟨k1, c1⟩ := p
    intro h
    rw [List.lookup] at h
    cases hk : k == k1 with
    | true =>
      rw [hk] at h
      exact ⟨k1, by simp [Option.some_inj.mp h]⟩
    | false =>
      rw [hk] at h
      obtain ⟨k2, hmem⟩ := ih h
      exact ⟨k2, List.mem_cons_of_mem _ hmem⟩

/-- The file of a chunk found by lookup is one of the manifest files. -/
theorem lookup_file_mem {m : PageManifest} {k : String} {c : ManifestChunk}
    (h : List.lookup k m = some c) : c.file ∈ manifestFiles m := by
  obtain ⟨k2, hmem⟩ := lookup_mem h
  exact List.mem_dedup.mpr (List.mem_map.mpr ⟨(k2, c), hmem, rfl⟩)

/-- Filtering with a pointwise stronger predicate keeps fewer elements. -/
theorem length_filter_le_of_imp (l : List String) (p q : String → Bool)
    (h : ∀ a ∈ l, p a = true → q a = true) :
    (l.filter p).length ≤ (l.filter q).length := by
  induction l with
  | nil => simp
  | cons a t ih =>
    have iht := ih (fun b hb => h b (List.mem_cons_of_mem a hb))
    cases hp : p a with
    | false =>
      cases hq : q a with
      | false => simpa [List.filter, hp, hq] using iht
      | true =>
        simp only [List.filter, hp, hq]
        exact Nat.le_succ_of_le iht
    | true =>
      have hqa := h a (List.mem_cons_self a t) hp
      simp only [List.filter, hp, hqa]
      exact Nat.succ_le_succ iht

/-- Growing the collected set can only shrink the uncollected files. -/
theorem newFiles_length_le_of_subset {m : PageManifest}
    {c1 c2 : List String} (h : c1 ⊆ c2) :
    (newFiles m c2).length ≤ (newFiles m c1).length := by
  apply length_filter_le_of_imp
  intro a _ hp
  simp only [List.elem_eq_mem, Bool.not_eq_true', decide_eq_false_iff_not] at hp ⊢
  intro hc1
  exact hp (h hc1)

/-- Collecting one more manifest file strictly shrinks the uncollected
files. -/
theorem newFiles_append_length_lt {m : PageManifest} {collected : List String}
    {f : String} (hf : f ∈ manifestFiles m) (hnc : f ∉ collected) :
    (newFiles m (collected ++ [f])).length < (newFiles m collected).length := by
  have hsplit : ∀ a, (!(List.elem a (collected ++ [f]))) =
      ((a != f) && (!(List.elem a collected))) := by
    intro a
    by_cases h1 : a ∈ collected <;> by_cases h2 : a = f <;>
      simp [List.elem_eq_mem, h1, h2]
  have heq : newFiles m (collected ++ [f]) =
      (newFiles m collected).filter (fun a => a != f) := by
    unfold newFiles
    rw [List.filter_filter]
    apply List.filter_congr
    intro a _
    rw [hsplit a]
  rw [heq]
  have hfmem : f ∈ newFiles m collected := by
    unfold newFiles
    rw [List.mem_filter]
    exact ⟨hf, by simp [List.elem_eq_mem, hnc]⟩
  calc ((newFiles m collected).filter (fun a => a != f)).length
      < ((newFiles m collected).filter (fun a => a != f)).length + 1 :=
        Nat.lt_succ_self _
    _ ≤ (newFiles m collected).length := by
        have := List.length_eq_length_filter_add (l := newFiles m collected)
          (fun a => a != f)
        have hone : 1 ≤ ((newFiles m collected).filter
            (fun a => !(a != f))).length := by
          have : f ∈ (newFiles m collected).filter (fun a => !(a != f)) := by
            rw [List.mem_filter]
            exact ⟨hfmem, by simp⟩
          exact List.length_pos.mpr (List.ne_nil_of_mem this)
        omega

/-- The collected set only grows along the preload walk. -/
theorem collectMPAux_subset (m : PageManifest) (fuel : Nat)
    (keys collected : List String) :
    collected ⊆ collectMPAux m fuel keys collected := by
  induction fuel, keys, collected using collectMPAux.induct m with
  | case1 fuel collected =>
    rw [collectMPAux]
    exact fun x hx => hx
  | case2 fuel key rest collected hl ih =>
    rw [collectMPAux, hl]
    exact ih
  | case3 fuel key rest collected ic hl hmem ih =>
    rw [collectMPAux, hl]
    simp only [if_pos hmem]
    exact ih
  | case4 key rest collected ic hl hmem =>
    rw [collectMPAux, hl]
    simp only [if_neg hmem]
    exact fun x hx => hx
  | case5 key rest collected ic hl hmem f ih1 ih2 =>
    rw [collectMPAux, hl]
    simp only [if_neg hmem]
    intro x hx
    exact ih2 (ih1 (List.mem_append_left _ hx))

/-- Fuel does not matter once sufficient: any two fuel values strictly
dominating the number of uncollected manifest files yield the same walk,
because every descent collects a fresh manifest file first. This is the
termination argument for the cycle-safe walk. -/
theorem collectMPAux_fuel_eq (m : PageManifest) :
    ∀ f1, ∀ f2, f1 ≤ f2 → ∀ keys collected, SuffFuel m collected f1 →
      collectMPAux m f1 keys collected = collectMPAux m f2 keys collected := by
  intro f1
  induction f1 using Nat.strong_induction_on with
  | _ f1 ihf =>
    intro f2 hle keys
    induction keys with
    | nil =>
      intro collected _
      rw [collectMPAux, collectMPAux]
    | cons key rest ihk =>
      intro collected hsuff
      cases hl : List.lookup key m with
      | none =>
        rw [collectMPAux, collectMPAux, hl]
        exact ihk collected hsuff
      | some ic =>
        by_cases hmem : ic.file ∈ collected
        · rw [collectMPAux, collectMPAux, hl]
          simp only [if_pos hmem]
          exact ihk collected hsuff
        · have hfile : ic.file ∈ manifestFiles m := lookup_file_mem hl
          have hnew : ic.file ∈ newFiles m collected := by
            unfold newFiles
            rw [List.mem_filter]
            exact ⟨hfile, by simp [List.elem_eq_mem, hmem]⟩
          have hpos : 1 ≤ (newFiles m collected).length :=
            List.length_pos.mpr (List.ne_nil_of_mem hnew)
          obtain ⟨a, rfl⟩ : ∃ a, f1 = a + 1 := by
            cases f1 with
            | zero =>
              exfalso
              unfold SuffFuel at hsuff
              omega
            | succ a => exact ⟨a, rfl⟩
          obtain ⟨b, rfl⟩ : ∃ b, f2 = b + 1 := by
            cases f2 with
            | zero => exact absurd hle (by omega)
            | succ b => exact ⟨b, rfl⟩
          have hab : a ≤ b := by omega
          have hlt : (newFiles m (collected ++ [ic.file])).length <
              (newFiles m collected).length :=
            newFiles_append_length_lt hfile hmem
          have hsuffInner : SuffFuel m (collected ++ [ic.file]) a := by
            unfold SuffFuel at hsuff ⊢
            omega
          have hinner := ihf a (by omega) b hab (ic.imports.getD [])
            (collected ++ [ic.file]) hsuffInner
          rw [collectMPAux, collectMPAux, hl]
          simp only [if_neg hmem]
          rw [← hinner]
          have hsuffS : SuffFuel m
              (collectMPAux m a (ic.imports.getD []) (collected ++ [ic.file]))
              (a + 1) := by
            unfold SuffFuel at hsuff ⊢
            have h1 : (newFiles m (collectMPAux m a (ic.imports.getD [])
                (collected ++ [ic.file]))).length ≤
                (newFiles m (collected ++ [ic.file])).length :=
              newFiles_length_le_of_subset (collectMPAux_subset m a _ _)
            omega
          exact ihk _ hsuffS

/-- The preload walk preserves absence of duplicates in the collected
set: a file is appended only when not yet present. -/
theorem collectMPAux_nodup (m : PageManifest) (fuel : Nat)
    (keys collected : List String) (h : collected.Nodup) :
    (collectMPAux m fuel keys collected).Nodup := by
  induction fuel, keys, collected using collectMPAux.induct m with
  | case1 fuel collected => rw [collectMPAux]; exact h
  | case2 fuel key rest collected hl ih =>
    rw [collectMPAux, hl]
    exact ih h
  | case3 fuel key rest collected ic hl hmem ih =>
    rw [collectMPAux, hl]
    simp only [if_pos hmem]
    exact ih h
  | case4 key rest collected ic hl hmem =>
    rw [collectMPAux, hl]
    simp only [if_neg hmem]
    exact h
  | case5 key rest collected ic hl hmem f ih1 ih2 =>
    rw [collectMPAux, hl]
    simp only [if_neg hmem]
    apply ih2
    apply ih1
    simpa [List.nodup_append] using ⟨h, hmem⟩

/-- Monotonicity of reachability in the starting key list. -/
theorem MPReach_mono {m : PageManifest} {keys keys2 : List String}
    {x : String} (hsub : keys ⊆ keys2) (h : MPReach m keys x) :
    MPReach m keys2 x := by
  cases h with
  | here hk hl => exact MPReach.here (hsub hk) hl
  | step hk hl hd => exact MPReach.step (hsub hk) hl hd

/-- Soundness of the preload walk: every collected file was either
already collected or is reachable from the starting keys. -/
theorem collectMPAux_sound (m : PageManifest) (fuel : Nat)
    (keys collected : List String) :
    ∀ x, x ∈ collectMPAux m fuel keys collected →
      x ∈ collected ∨ MPReach m keys x := by
  induction fuel, keys, collected using collectMPAux.induct m with
  | case1 fuel collected =>
    intro x hx
    rw [collectMPAux] at hx
    exact Or.inl hx
  | case2 fuel key rest collected hl ih =>
    intro x hx
    rw [collectMPAux, hl] at hx
    rcases ih x hx with h | h
    · exact Or.inl h
    · exact Or.inr (MPReach_mono (List.subset_cons_self key rest) h)
  | case3 fuel key rest collected ic hl hmem ih =>
    intro x hx
    rw [collectMPAux, hl] at hx
    simp only [if_pos hmem] at hx
    rcases ih x hx with h | h
    · exact Or.inl h
    · exact Or.inr (MPReach_mono (List.subset_cons_self key rest) h)
  | case4 key rest collected ic hl hmem =>
    intro x hx
    rw [collectMPAux, hl] at hx
    simp only [if_neg hmem] at hx
    exact Or.inl hx
  | case5 key rest collected ic hl hmem f ih1 ih2 =>
    intro x hx
    rw [collectMPAux, hl] at hx
    simp only [if_neg hmem] at hx
    rcases ih2 x hx with h | h
    · rcases ih1 x h with h2 | h2
      · rcases List.mem_append.mp h2 with h3 | h3
        · exact Or.inl h3
        · have hxf : x = ic.file := by simpa using h3
          exact Or.inr (hxf ▸ MPReach.here (List.mem_cons_self key rest) hl)
      · exact Or.inr (MPReach.step (List.mem_cons_self key rest) hl h2)
    · exact Or.inr (MPReach_mono (List.subset_cons_self key rest) h)

/-- KeyDone is monotone in the collected set. -/
theorem KeyDone_mono {m : PageManifest} {S S2 : List String} {k : String}
    (hsub : S ⊆ S2) (h : KeyDone m S k) : KeyDone m S2 k :=
  fun c hc => hsub (h c hc)

/-- InvExcept is monotone in the pending keys. -/
theorem InvExcept_mono_pending {m : PageManifest} {S : List String}
    {p1 p2 : List String} (hsub : p1 ⊆ p2) (h : InvExcept m S p1) :
    InvExcept m S p2 := by
  intro k c hl hf k2 hk2
  rcases h k c hl hf k2 hk2 with hd | hp
  · exact Or.inl hd
  · exact Or.inr (hsub hp)

/-- Main invariant of the preload walk: under sufficient fuel and equal
imports for equal files, the walk turns a set closed up to its worklist
plus outer pending keys into a set closed up to the outer pending keys,
and completes every key of its worklist. -/
theorem collectMPAux_inv (m : PageManifest) (hff : FileFunctional m) :
    ∀ f1, ∀ keys collected pending,
      SuffFuel m collected f1 →
      InvExcept m collected (keys ++ pending) →
      InvExcept m (collectMPAux m f1 keys collected) pending ∧
        ∀ k ∈ keys, KeyDone m (collectMPAux m f1 keys collected) k := by
  intro f1
  induction f1 using Nat.strong_induction_on with
  | _ f1 ihf =>
    intro keys
    induction keys with
    | nil =>
      intro collected pending _ hinv
      rw [collectMPAux]
      exact ⟨by simpa using hinv, by simp⟩
    | cons key rest ihk =>
      intro collected pending hsuff hinv
      cases hl : List.lookup key m with
      | none =>
        rw [collectMPAux, hl]
        have hinv2 : InvExcept m collected (rest ++ pending) := by
          intro k c hlk hf k2 hk2
          rcases hinv k c hlk hf k2 hk2 with hd | hp
          · exact Or.inl hd
          · rcases List.mem_cons.mp hp with rfl | hp2
            · exact Or.inl (fun c2 hc2 => by rw [hl] at hc2; cases hc2)
            · exact Or.inr hp2
        obtain ⟨h1, h2⟩ := ihk collected pending hsuff hinv2
        refine ⟨h1, ?_⟩
        intro k hk
        rcases List.mem_cons.mp hk with rfl | hk2
        · exact fun c2 hc2 => by rw [hl] at hc2; cases hc2
        · exact h2 k hk2
      | some ic =>
        by_cases hmem : ic.file ∈ collected
        · rw [collectMPAux, hl]
          simp only [if_pos hmem]
          have hinv2 : InvExcept m collected (rest ++ pending) := by
            intro k c hlk hf k2 hk2
            rcases hinv k c hlk hf k2 hk2 with hd | hp
            · exact Or.inl hd
            · rcases List.mem_cons.mp hp with rfl | hp2
              · exact Or.inl (fun c2 hc2 => by
                  rw [hl] at hc2
                  cases Option.some_inj.mp hc2
                  exact hmem)
              · exact Or.inr hp2
          obtain ⟨h1, h2⟩ := ihk collected pending hsuff hinv2
          refine ⟨h1, ?_⟩
          intro k hk
          rcases List.mem_cons.mp hk with rfl | hk2
          · exact fun c2 hc2 => by
              rw [hl] at hc2
              cases Option.some_inj.mp hc2
              exact collectMPAux_subset m f1 rest collected hmem
          · exact h2 k hk2
        · have hfile : ic.file ∈ manifestFiles m := lookup_file_mem hl
          have hnew : ic.file ∈ newFiles m collected := by
            unfold newFiles
            rw [List.mem_filter]
            exact ⟨hfile, by simp [List.elem_eq_mem, hmem]⟩
          have hpos : 1 ≤ (newFiles m collected).length :=
            List.length_pos.mpr (List.ne_nil_of_mem hnew)
          obtain ⟨a, rfl⟩ : ∃ a, f1 = a + 1 := by
            cases f1 with
            | zero =>
              exfalso
              unfold SuffFuel at hsuff
              omega
            | succ a => exact ⟨a, rfl⟩
          rw [collectMPAux, hl]
          simp only [if_neg hmem]
          have hlt : (newFiles m (collected ++ [ic.file])).length <
              (newFiles m collected).length :=
            newFiles_append_length_lt hfile hmem
          have hsuffInner : SuffFuel m (collected ++ [ic.file]) a := by
            unfold SuffFuel at hsuff ⊢
            omega
          have hinvInner : InvExcept m (collected ++ [ic.file])
              (ic.imports.getD [] ++ (rest ++ pending)) := by
            intro k c hlk hf k2 hk2
            rcases List.mem_append.mp hf with hf1 | hf2
            · rcases hinv k c hlk hf1 k2 hk2 with hd | hp
              · exact Or.inl (KeyDone_mono (List.subset_append_left _ _) hd)
              · rcases List.mem_cons.mp hp with rfl | hp2
                · refine Or.inl ?_
                  intro c2 hc2
                  rw [hl] at hc2
                  cases Option.some_inj.mp hc2
                  exact List.mem_append_right _ (by simp)
                · exact Or.inr (List.mem_append_right _ hp2)
            · have hcf : c.file = ic.file := by simpa using hf2
              obtain ⟨kc, hkc⟩ := lookup_mem hlk
              obtain ⟨ki, hki⟩ := lookup_mem hl
              have himp : c.imports = ic.imports :=
                hff (kc, c) hkc (ki, ic) hki hcf
              rw [himp] at hk2
              exact Or.inr (List.mem_append_left _ hk2)
          obtain ⟨hInner1, hInner2⟩ := ihf a (by omega) (ic.imports.getD [])
            (collected ++ [ic.file]) (rest ++ pending) hsuffInner hinvInner
          have hsubS1 : collected ++ [ic.file] ⊆
              collectMPAux m a (ic.imports.getD []) (collected ++ [ic.file]) :=
            collectMPAux_subset m a _ _
          have hsuffS1 : SuffFuel m
              (collectMPAux m a (ic.imports.getD []) (collected ++ [ic.file]))
              (a + 1) := by
            unfold SuffFuel at hsuff ⊢
            have h1 : (newFiles m (collectMPAux m a (ic.imports.getD [])
                (collected ++ [ic.file]))).length ≤
                (newFiles m (collected ++ [ic.file])).length :=
              newFiles_length_le_of_subset hsubS1
            omega
          obtain ⟨hOut1, hOut2⟩ := ihk
            (collectMPAux m a (ic.imports.getD []) (collected ++ [ic.file]))
            pending hsuffS1 hInner1
          refine ⟨hOut1, ?_⟩
          intro k hk
          rcases List.mem_cons.mp hk with rfl | hk2
          · intro c2 hc2
            rw [hl] at hc2
            cases Option.some_inj.mp hc2
            exact collectMPAux_subset m (a + 1) rest _
              (hsubS1 (List.mem_append_right _ (by simp)))
          · exact hOut2 k hk2

/-- A file reachable from a key list whose keys are all done lies in any
set closed up to no pending keys. -/
theorem MPReach_mem_of_inv (m : PageManifest) (S : List String)
    (hInv : InvExcept m S []) :
    ∀ {keys0 x}, MPReach m keys0 x →
      (∀ k ∈ keys0, KeyDone m S k) → x ∈ S := by
  intro keys0 x h
  induction h with
  | here hk hl =>
    intro hroots
    exact hroots _ hk _ hl
  | step hk hl hd ih =>
    intro hroots
    apply ih
    intro k2 hk2
    have hcf := hroots _ hk _ hl
    rcases hInv _ _ hl hcf k2 hk2 with hdone | hp
    · exact hdone
    · cases hp

/-- The canonical fuel is always sufficient. -/
theorem suffFuel_mpFuel (m : PageManifest) (collected : List String) :
    SuffFuel m collected (mpFuel m) := by
  unfold SuffFuel mpFuel
  have h1 : (newFiles m collected).length ≤ (manifestFiles m).length :=
    List.length_filter_le _ _
  have h2 : (manifestFiles m).length ≤ (m.map (fun p => p.2.file)).length :=
    (List.dedup_sublist _).length_le
  have h3 : (m.map (fun p => p.2.file)).length = m.length := List.length_map _ _
  omega

/-- Exactly-once characterization of the deduplicated preload walk: when
chunks that share a file share their imports (true in particular for
pairwise distinct files), the walk starting from an empty set collects a
duplicate-free list holding precisely the reachable chunk files. -/
theorem collectModulePreloads_exact (m : PageManifest) (chunk : ManifestChunk)
    (hff : FileFunctional m) :
    (collectModulePreloads m chunk []).Nodup ∧
      ∀ x, x ∈ collectModulePreloads m chunk [] ↔
        MPReach m (chunk.imports.getD []) x := by
  constructor
  · exact collectMPAux_nodup m (mpFuel m) _ [] List.nodup_nil
  · intro x
    constructor
    · intro hx
      rcases collectMPAux_sound m (mpFuel m) _ [] x hx with h | h
      · cases h
      · exact h
    · intro hx
      have hinv0 : InvExcept m ([] : List String)
          (chunk.imports.getD [] ++ []) := by
        intro k c _ hf
        cases hf
      obtain ⟨hInv, hroots⟩ := collectMPAux_inv m hff (mpFuel m)
        (chunk.imports.getD []) [] [] (suffFuel_mpFuel m []) hinv0
      exact MPReach_mem_of_inv m _ hInv hx hroots

/-- The state-threaded walk returns the manifest unchanged and computes
the same collected set as the plain walk. -/
theorem collectMPAuxS_frame :
    ∀ (m : PageManifest) (collected : List String) (fuel : Nat)
      (keys : List String),
      collectMPAuxS (m, collected) fuel keys =
        (m, collectMPAux m fuel keys collected) := by
  intro m collected fuel keys
  induction fuel, keys, collected using collectMPAux.induct m with
  | case1 fuel collected =>
    rw [collectMPAuxS, collectMPAux]
  | case2 fuel key rest collected hl ih =>
    rw [collectMPAuxS, collectMPAux, hl]
    exact ih
  | case3 fuel key rest collected ic hl hmem ih =>
    rw [collectMPAuxS, collectMPAux, hl]
    simp only [if_pos hmem]
    exact ih
  | case4 key rest collected ic hl hmem =>
    rw [collectMPAuxS, collectMPAux, hl]
    simp only [if_neg hmem]
  | case5 key rest collected ic hl hmem f ih1 ih2 =>
    rw [collectMPAuxS, collectMPAux, hl]
    simp only [if_neg hmem]
    rw [ih1]
    exact ih2

/-- On the cyclic manifest, the css walk starting from either chunk key
exhausts every finite stack budget: the recursion has no visited check. -/
theorem collectCss_cyc_diverges :
    ∀ fuel collected,
      collectCssImports cycManifest fuel ["chunk-a"] collected = none ∧
      collectCssImports cycManifest fuel ["chunk-b"] collected = none := by
  have hA : List.lookup "chunk-a" cycManifest =
      some { file := "a.js", css := none, imports := some ["chunk-b"] } := by
    decide
  have hB : List.lookup "chunk-b" cycManifest =
      some { file := "b.js", css := none, imports := some ["chunk-a"] } := by
    decide
  intro fuel
  induction fuel with
  | zero =>
    intro collected
    constructor
    · rw [collectCssImports, hA]
    · rw [collectCssImports, hB]
  | succ f ih =>
    intro collected
    constructor
    · rw [collectCssImports, hA]
      simp only [Option.getD_some]
      rw [(ih _).2]
    · rw [collectCssImports, hB]
      simp only [Option.getD_some]
      rw [(ih _).1]

end AppUtils

/-- A stylesheet link tag is never the empty string. -/
theorem stylesheetTag_ne_empty (s : String) : Neulix.stylesheetTag s ≠ "" := by
  intro h
  have hlen := congrArg String.length h
  unfold Neulix.stylesheetTag at hlen
  rw [String.length_append, String.length_append] at hlen
  have h1 : ("<link rel=\"stylesheet\" href=\"/" : String).length = 30 := rfl
  have h2 : ("\">" : String).length = 2 := rfl
  have h3 : ("" : String).length = 0 := rfl
  omega

/-- Claim C4: on the round-trip manifest, resolving home with hydration
yields exactly the stylesheet link, the modulepreload hint, and the
module script tag of the specification scenario. -/
theorem claim_C4 :
    Neulix.getPageAssetTags homeManifest "home" true =
      { scriptTags := "<script type=\"module\" src=\"/home-abc.js\"></script>"
        cssTags := "<link rel=\"stylesheet\" href=\"/styles-def.css\">"
        preloadTags := "<link rel=\"modulepreload\" href=\"/chunk-xyz.js\">" } := by
  decide

/-- Claim C5: for any manifest entry without an imports field, the
packages resolver returns an empty preloadTags fragment for any hydrate
value, and the exception-aware run returns normally. -/
theorem claim_C5 (m : Neulix.BuildManifest) (n : String)
    (e : Neulix.BuildEntry) (h : Bool) (hl : List.lookup n m = some e)
    (him : e.imports = none) :
    (Neulix.getPageAssetTags m n h).preloadTags = "" ∧
      Neulix.getPageAssetTagsE m n h =
        Except.ok (Neulix.getPageAssetTags m n h) := by
  refine ⟨?_, getPageAssetTagsE_ok m n h⟩
  cases h with
  | false => simp only [Neulix.getPageAssetTags, hl]
  | true =>
    cases hjs : e.js with
    | none => simp only [Neulix.getPageAssetTags, hl, hjs]
    | some js =>
      simp only [Neulix.getPageAssetTags, hl, hjs, Neulix.preloadHints, him,
        Neulix.joinTags]
      rfl

/-- Claim C5 witness at the concrete no-imports manifest. -/
theorem claim_C5_witness :
    (Neulix.getPageAssetTags noImportsManifest "home" true).preloadTags = "" ∧
      Neulix.getPageAssetTagsE noImportsManifest "home" true =
        Except.ok (Neulix.getPageAssetTags noImportsManifest "home" true) :=
  claim_C5 noImportsManifest "home"
    { js := some "home-abc.js", css := "styles-def.css", imports := none }
    true (by decide) rfl

/-- Claim C9: a manifest entry without a js field renders identically
with and without hydration: only the css tag, no script and no preload
hints. -/
theorem claim_C9 (m : Neulix.BuildManifest) (n : String)
    (e : Neulix.BuildEntry) (hl : List.lookup n m = some e)
    (hjs : e.js = none) :
    Neulix.getPageAssetTags m n true = Neulix.getPageAssetTags m n false ∧
      Neulix.getPageAssetTags m n true =
        { scriptTags := "", cssTags := Neulix.stylesheetTag e.css,
          preloadTags := "" } := by
  constructor
  · simp only [Neulix.getPageAssetTags, hl, hjs]
  · simp only [Neulix.getPageAssetTags, hl, hjs]

/-- Claim C9 witness at the concrete entry without a js field. -/
theorem claim_C9_witness :
    Neulix.getPageAssetTags cssOnlyManifest "docs" true =
      Neulix.getPageAssetTags cssOnlyManifest "docs" false ∧
      Neulix.getPageAssetTags cssOnlyManifest "docs" true =
        { scriptTags := "", cssTags := Neulix.stylesheetTag "styles-def.css",
          preloadTags := "" } :=
  claim_C9 cssOnlyManifest "docs"
    { js := none, css := "styles-def.css", imports := some ["chunk-xyz.js"] }
    (by decide) rfl

/-- Claim C10: createPages keeps exactly the input keys in order, each
output record carries its key as name, and component and hydrate pass
through unchanged. -/
theorem claim_C10 {α : Type} (input : List (String × Neulix.PageInput α)) :
    (Neulix.createPages input).map Prod.fst = input.map Prod.fst ∧
      ∀ (k : String) (cfg : Neulix.PageConfig α),
        (k, cfg) ∈ Neulix.createPages input ↔
          ∃ p, (k, p) ∈ input ∧ cfg.name = k ∧
            cfg.component = p.component ∧ cfg.hydrate = p.hydrate := by
  constructor
  · unfold Neulix.createPages
    rw [List.map_map]
    rfl
  · intro k cfg
    constructor
    · intro hmem
      unfold Neulix.createPages at hmem
      rw [List.mem_map] at hmem
      obtain ⟨⟨k2, p⟩, hp, heq⟩ := hmem
      rw [Prod.mk.injEq] at heq
      obtain ⟨rfl, rfl⟩ := heq
      exact ⟨p, hp, rfl, rfl, rfl⟩
    · rintro ⟨p, hp, hname, hcomp, hhyd⟩
      unfold Neulix.createPages
      rw [List.mem_map]
      refine ⟨(k, p), hp, ?_⟩
      cases cfg
      simp only at hname hcomp hhyd
      rw [Prod.mk.injEq]
      exact ⟨rfl, by rw [hname, hcomp, hhyd]⟩

/-- Claim C2 counterexample: in the prototype resolver the lookup key is
derived from the entry name, so a manifest holding only the derived key
src/pages/Home.entry.tsx produces a full script tag for the name home
even though home is not a key of the manifest. -/
theorem claim_C2_counterexample :
    List.lookup "home" derivedKeyManifest = none ∧
      AppUtils.getPageAssetTagsF derivedKeyManifest 2 "home" true =
        some { scriptTags := Neulix.moduleScriptTag "Home-abc.js"
               cssTags := "", preloadTags := "" } ∧
      AppUtils.getPageAssetTagsF derivedKeyManifest 2 "home" true ≠
        some Neulix.emptyTags := by
  have hE : List.lookup (AppUtils.pagesEntryKey "home") derivedKeyManifest =
      some { file := "Home-abc.js", css := none, imports := none } := by
    decide
  have hcss : AppUtils.hasCssExt "Home-abc.js" = false := by decide
  have hrun : AppUtils.getPageAssetTagsF derivedKeyManifest 2 "home" true =
      some { scriptTags := Neulix.moduleScriptTag "Home-abc.js"
             cssTags := "", preloadTags := "" } := by
    simp only [AppUtils.getPageAssetTagsF, ite_true, hE, hcss,
      Bool.false_eq_true, if_false, ite_false]
    simp only [AppUtils.collectCssRun, Option.getD_none, Option.getD_some,
      AppUtils.addAll, List.foldl_nil]
    rw [AppUtils.collectCssImports]
    simp only [AppUtils.collectModulePreloads, Option.getD_none]
    rw [AppUtils.collectMPAux]
    rfl
  refine ⟨by decide, hrun, ?_⟩
  rw [hrun]
  decide

/-- Claim C2 amended: a missing lookup key yields all-empty fragments in
both resolvers; in the packages resolver the key is the raw entry name,
while in the prototype resolver it is the key derived from the entry
name and the hydrate flag. -/
theorem claim_C2_amended :
    (∀ (m : Neulix.BuildManifest) (n : String) (h : Bool),
        List.lookup n m = none →
          Neulix.getPageAssetTags m n h = Neulix.emptyTags) ∧
      ∀ (m : AppUtils.PageManifest) (fuel : Nat) (n : String) (h : Bool),
        List.lookup (if h then AppUtils.pagesEntryKey n
          else AppUtils.pagesCssKey n) m = none →
          AppUtils.getPageAssetTagsF m fuel n h = some Neulix.emptyTags := by
  constructor
  · intro m n h hl
    simp only [Neulix.getPageAssetTags, hl]
  · intro m fuel n h hl
    simp only [AppUtils.getPageAssetTagsF, hl]

/-- Claim C2 witness at concrete missing keys. -/
theorem claim_C2_witness :
    Neulix.getPageAssetTags homeManifest "missing" false = Neulix.emptyTags ∧
      AppUtils.getPageAssetTagsF rawKeyManifest 3 "missing" true =
        some Neulix.emptyTags :=
  ⟨claim_C2_amended.1 homeManifest "missing" false (by decide),
   claim_C2_amended.2 rawKeyManifest 3 "missing" true (by decide)⟩

/-- Claim C3 counterexample: in the prototype resolver, the raw name
home is a key of the manifest, yet resolving home without hydration
returns all-empty fragments, because the derived key
src/pages/Home.css is absent. -/
theorem claim_C3_counterexample :
    List.lookup "home" rawKeyManifest =
        some { file := "x.js", css := none, imports := none } ∧
      AppUtils.getPageAssetTagsF rawKeyManifest 5 "home" false =
        some Neulix.emptyTags := by
  refine ⟨by decide, by decide⟩

/-- Claim C3 amended: in the packages resolver, every present entry
resolved without hydration yields exactly the stylesheet link with empty
script and preload fragments, and the css fragment is never empty,
whatever the js and imports fields hold. -/
theorem claim_C3_amended (m : Neulix.BuildManifest) (n : String)
    (e : Neulix.BuildEntry) (hl : List.lookup n m = some e) :
    Neulix.getPageAssetTags m n false =
      { scriptTags := "", cssTags := Neulix.stylesheetTag e.css,
        preloadTags := "" } ∧
      (Neulix.getPageAssetTags m n false).cssTags ≠ "" := by
  have h1 : Neulix.getPageAssetTags m n false =
      { scriptTags := "", cssTags := Neulix.stylesheetTag e.css,
        preloadTags := "" } := by
    simp only [Neulix.getPageAssetTags, hl]
  refine ⟨h1, ?_⟩
  rw [h1]
  exact stylesheetTag_ne_empty e.css

/-- Claim C3 witness at the round-trip manifest without hydration. -/
theorem claim_C3_witness :
    Neulix.getPageAssetTags homeManifest "home" false =
      { scriptTags := "", cssTags := Neulix.stylesheetTag "styles-def.css",
        preloadTags := "" } ∧
      (Neulix.getPageAssetTags homeManifest "home" false).cssTags ≠ "" :=
  claim_C3_amended homeManifest "home"
    { js := some "home-abc.js", css := "styles-def.css",
      imports := some ["chunk-xyz.js"] } (by decide)

/-- On the cyclic manifest, the hydrated home resolution of the
prototype resolver returns no value for any stack budget: the collectCss
walk cycles between chunk-a and chunk-b. -/
theorem getPageAssetTagsF_cyc_none (fuel : Nat) :
    AppUtils.getPageAssetTagsF AppUtils.cycManifest fuel "home" true = none := by
  have hE : List.lookup (AppUtils.pagesEntryKey "home") AppUtils.cycManifest =
      some cycEntry := by decide
  have hcss : AppUtils.hasCssExt "Home-abc.js" = false := by decide
  simp only [AppUtils.getPageAssetTagsF, if_true, ite_true, hE]
  simp only [cycEntry, hcss, Bool.false_eq_true, if_false, ite_false]
  cases fuel with
  | zero => rfl
  | succ f =>
    rw [AppUtils.collectCssRun]
    have := (AppUtils.collectCss_cyc_diverges f
      (AppUtils.addAll [] ((Option.none : Option (List String)).getD []))).1
    simp only [Option.getD_some]
    rw [this]

/-- Claim C6 counterexample: on the cyclic manifest the prototype
resolver never returns for the hydrated home page: collectCss recurses
along the chunk-a chunk-b cycle without a visited check, so the
JavaScript run overflows the stack instead of returning a record. -/
theorem claim_C6_counterexample :
    ¬ AppUtils.ReturnsAt AppUtils.cycManifest "home" true := by
  intro hret
  obtain ⟨fuel, tags, heq⟩ := hret
  rw [getPageAssetTagsF_cyc_none fuel] at heq
  exact Option.noConfusion heq

/-- Claim C6 amended: the packages resolver is total and never throws:
the exception-aware run always returns normally with the pure result, a
missing entry yields all-empty fragments, an entry without a js field
yields empty script and preload fragments, and an entry without imports
yields an empty preload fragment. The prototype resolver is not total:
its collectCss walk diverges on cyclic manifests. -/
theorem claim_C6_amended (m : Neulix.BuildManifest) (n : String) (h : Bool) :
    Neulix.getPageAssetTagsE m n h =
        Except.ok (Neulix.getPageAssetTags m n h) ∧
      (List.lookup n m = none →
        Neulix.getPageAssetTags m n h = Neulix.emptyTags) ∧
      (∀ e, List.lookup n m = some e → e.js = none →
        (Neulix.getPageAssetTags m n h).scriptTags = "" ∧
          (Neulix.getPageAssetTags m n h).preloadTags = "") ∧
      ∀ e, List.lookup n m = some e → e.imports = none →
        (Neulix.getPageAssetTags m n h).preloadTags = "" := by
  refine ⟨getPageAssetTagsE_ok m n h, ?_, ?_, ?_⟩
  · intro hl
    simp only [Neulix.getPageAssetTags, hl]
  · intro e hl hjs
    cases h <;> simp [Neulix.getPageAssetTags, hl, hjs]
  · intro e hl him
    cases h with
    | false => simp only [Neulix.getPageAssetTags, hl]
    | true =>
      cases hjs : e.js with
      | none => simp only [Neulix.getPageAssetTags, hl, hjs]
      | some js =>
        simp only [Neulix.getPageAssetTags, hl, hjs, Neulix.preloadHints, him,
          Neulix.joinTags]
        rfl

/-- Claim C6 witness: the amended totality facts at concrete inputs. -/
theorem claim_C6_witness :
    Neulix.getPageAssetTagsE homeManifest "missing" true =
        Except.ok (Neulix.getPageAssetTags homeManifest "missing" true) ∧
      Neulix.getPageAssetTags homeManifest "missing" true =
        Neulix.emptyTags ∧
      (Neulix.getPageAssetTags cssOnlyManifest "docs" true).scriptTags = "" ∧
      (Neulix.getPageAssetTags noImportsManifest "home" true).preloadTags = "" :=
  ⟨(claim_C6_amended homeManifest "missing" true).1,
   (claim_C6_amended homeManifest "missing" true).2.1 (by decide),
   ((claim_C6_amended cssOnlyManifest "docs" true).2.2.1
      { js := none, css := "styles-def.css", imports := some ["chunk-xyz.js"] }
      (by decide) rfl).1,
   (claim_C6_amended noImportsManifest "home" true).2.2.2
      { js := some "home-abc.js", css := "styles-def.css", imports := none }
      (by decide) rfl⟩

/-- Claim C7: the resolvers are pure functions of their inputs. The
state-threaded run of the packages resolver returns the manifest
unchanged next to the pure result; the state-threaded preload walk of
the prototype resolver likewise returns its manifest unchanged; and
equal inputs give equal outputs. -/
theorem claim_C7 :
    (∀ (m : Neulix.BuildManifest) (n : String) (h : Bool),
        Neulix.getPageAssetTagsRun m n h =
          (Neulix.getPageAssetTags m n h, m)) ∧
      (∀ (m : AppUtils.PageManifest) (collected : List String)
          (fuel : Nat) (keys : List String),
          AppUtils.collectMPAuxS (m, collected) fuel keys =
            (m, AppUtils.collectMPAux m fuel keys collected)) ∧
      ∀ (m1 m2 : Neulix.BuildManifest) (n1 n2 : String) (h1 h2 : Bool),
        m1 = m2 → n1 = n2 → h1 = h2 →
          Neulix.getPageAssetTags m1 n1 h1 = Neulix.getPageAssetTags m2 n2 h2 := by
  refine ⟨?_, AppUtils.collectMPAuxS_frame, ?_⟩
  · intro m n h
    cases hl : List.lookup n m with
    | none => simp only [Neulix.getPageAssetTagsRun, Neulix.getPageAssetTags, hl]
    | some e =>
      cases h <;> cases hjs : e.js <;>
        simp only [Neulix.getPageAssetTagsRun, Neulix.getPageAssetTags, hl, hjs]
  · intro m1 m2 n1 n2 h1 h2 hm hn hh
    rw [hm, hn, hh]

/-- Claim C7 witness at concrete inputs. -/
theorem claim_C7_witness :
    Neulix.getPageAssetTagsRun homeManifest "home" true =
        (Neulix.getPageAssetTags homeManifest "home" true, homeManifest) ∧
      AppUtils.collectMPAuxS (diamondManifest, []) 4 ["a", "b"] =
        (diamondManifest, AppUtils.collectMPAux diamondManifest 4 ["a", "b"] []) ∧
      Neulix.getPageAssetTags homeManifest "home" true =
        Neulix.getPageAssetTags homeManifest "home" true :=
  ⟨claim_C7.1 homeManifest "home" true,
   claim_C7.2.1 diamondManifest [] 4 ["a", "b"],
   claim_C7.2.2 homeManifest homeManifest "home" "home" true true rfl rfl rfl⟩

/-- Claim C8: the deduplicated preload walk needs only a bounded descent
depth on every finite manifest, cycles included: any fuel at least one
more than the manifest length gives the same result as the canonical
collectModulePreloads, because a chunk whose file is already collected
is never descended into again. -/
theorem claim_C8 (m : AppUtils.PageManifest) (chunk : AppUtils.ManifestChunk)
    (collected : List String) (fuel : Nat)
    (hfuel : AppUtils.mpFuel m ≤ fuel) :
    AppUtils.collectMPAux m fuel (chunk.imports.getD []) collected =
      AppUtils.collectModulePreloads m chunk collected := by
  unfold AppUtils.collectModulePreloads
  exact (AppUtils.collectMPAux_fuel_eq m (AppUtils.mpFuel m) fuel hfuel
    (chunk.imports.getD []) collected (AppUtils.suffFuel_mpFuel m collected)).symm

/-- Claim C8 witness: on the concrete cyclic manifest the walk with a
larger fuel agrees with the canonical walk. -/
theorem claim_C8_witness :
    AppUtils.mpFuel AppUtils.cycManifest ≤ 10 ∧
      AppUtils.collectMPAux AppUtils.cycManifest 10 (cycEntry.imports.getD []) [] =
        AppUtils.collectModulePreloads AppUtils.cycManifest cycEntry [] :=
  ⟨by decide, claim_C8 AppUtils.cycManifest cycEntry [] 10 (by decide)⟩

set_option maxRecDepth 8000 in
/-- Claim C1 counterexample: the packages resolver maps the imports
array directly to hints, so an entry with imports listing chunk-a twice
produces the chunk-a hint twice in preloadTags rather than exactly once. -/
theorem claim_C1_counterexample :
    (Neulix.getPageAssetTags dupImportsManifest "home" true).preloadTags =
        Neulix.modulepreloadTag "chunk-a.js" ++ "\n    " ++
          Neulix.modulepreloadTag "chunk-b.js" ++ "\n    " ++
          Neulix.modulepreloadTag "chunk-a.js" ∧
      countOccs (Neulix.modulepreloadTag "chunk-a.js").data
        (Neulix.getPageAssetTags dupImportsManifest "home" true).preloadTags.data
        = 2 := by
  refine ⟨by decide, by decide⟩

/-- Claim C1 amended: the exactly-once property holds of the recursive
prototype walk, not of the flat packages resolver. Provided chunks that
share a file name share their imports (true for content-hashed files),
collectModulePreloads collects a duplicate-free list holding each chunk
file transitively reachable from the entry imports exactly once,
whatever the fan-in or duplication among import lists. The packages
resolver instead emits one hint per element of the imports array. -/
theorem claim_C1_amended (m : AppUtils.PageManifest)
    (chunk : AppUtils.ManifestChunk) (hff : AppUtils.FileFunctional m) :
    (AppUtils.collectModulePreloads m chunk []).Nodup ∧
      ∀ x, x ∈ AppUtils.collectModulePreloads m chunk [] ↔
        AppUtils.MPReach m (chunk.imports.getD []) x :=
  AppUtils.collectModulePreloads_exact m chunk hff

/-- Claim C1 witness on the diamond manifest: the c file is reachable on
two paths yet the collected list is duplicate-free, and membership of
the c file coincides with its reachability. -/
theorem claim_C1_witness :
    AppUtils.FileFunctional diamondManifest ∧
      (AppUtils.collectModulePreloads diamondManifest diamondEntry []).Nodup ∧
      ("c.js" ∈ AppUtils.collectModulePreloads diamondManifest diamondEntry [] ↔
        AppUtils.MPReach diamondManifest (diamondEntry.imports.getD []) "c.js") :=
  ⟨by decide,
   (claim_C1_amended diamondManifest diamondEntry (by decide)).1,
   (claim_C1_amended diamondManifest diamondEntry (by decide)).2 "c.js"⟩
